import Mathlib

/-!
Verification of the chat widget in `src/components/chat-interface.tsx`.

The file embeds the testable core of the component:

* `sanitizeInput` — the Redactor: two global regex substitutions,
  email first (`[a-zA-Z0-9._%+-]+@[a-zA-Z0-9.-]+\.[a-zA-Z]{2,}`), then
  phone (`\b\d{10}\b`), both modelled as left-to-right scanners with the
  exact backtracking behaviour of the JavaScript regex engine on these
  two patterns.
* `getMockResponse` — the ResponseResolver: lower-case the query, select
  the bundle for the language code (falling back to `en-US`), then test
  the password keywords before the privacy keywords.
* a small transition system for the component state (message list,
  pending simulated responses, selected language, input field) with the
  `handleSend`, `setTimeout` callback, language selection and
  `clearHistory` actions, plus a model of the speech-synthesis boundary.
-/

namespace Citadel

/-! ### Character classes of the two regexes -/

/-- Class `[a-zA-Z0-9._%+-]` of the email pattern's local part. -/
def emailLocalChar (c : Char) : Bool :=
  c.isAlpha || c.isDigit || c == '.' || c == '_' || c == '%' || c == '+' || c == '-'

/-- Class `[a-zA-Z0-9.-]` of the email pattern's domain part. -/
def emailDomainChar (c : Char) : Bool :=
  c.isAlpha || c.isDigit || c == '.' || c == '-'

/-- JavaScript regex word character `[A-Za-z0-9_]`, used by `\b`. -/
def isWordChar (c : Char) : Bool :=
  c.isAlpha || c.isDigit || c == '_'

/-- The word-character status to the left of the scan position after
scanning past `a`, starting from status `p`. -/
def prevAfter (p : Bool) : List Char → Bool
  | [] => p
  | c :: cs => prevAfter (isWordChar c) cs

/-- The replacement token for email matches. -/
def emailToken : List Char := "[EMAIL REDACTED]".data

/-- The replacement token for phone matches. -/
def phoneToken : List Char := "[PHONE REDACTED]".data

/-! ### Email matcher

A match of `[a-zA-Z0-9._%+-]+@[a-zA-Z0-9.-]+\.[a-zA-Z]{2,}` at a given
position: a non-empty run of local chars (greedy; no backtracking can
help since `@` is not a local char), `@`, then the greedy `+` over
domain chars backtracks from the longest consumption down until the next
char is `.` followed by at least two letters; `{2,}` then takes the
maximal letter run.  `domSplitFrom dom j` tries split points `j, j-1,
…, 1`, where a split point `j` means the `+` consumed `dom[0..j)`, the
`\.` matched `dom[j]`, and the letters follow from `j+1`. -/

/-- Length of the maximal letter run after position `j` of `dom`. -/
def letterRunAfter (dom : List Char) (j : Nat) : Nat :=
  ((dom.drop (j+1)).takeWhile Char.isAlpha).length

/-- Search split points from `j` downwards (greedy backtracking order).
Returns the number of characters matched after the `@`. -/
def domSplitFrom (dom : List Char) : Nat → Option Nat
  | 0 => none
  | j+1 =>
    if dom.get? (j+1) = some '.' ∧ 2 ≤ letterRunAfter dom (j+1) then
      some ((j+1) + 1 + letterRunAfter dom (j+1))
    else domSplitFrom dom j

/-- Greedy match of `[a-zA-Z0-9.-]+\.[a-zA-Z]{2,}` against the maximal
domain-char run `dom`; `none` when no split point works. -/
def domSplit (dom : List Char) : Option Nat :=
  domSplitFrom dom (dom.length - 1)

/-- Length of the email-pattern match starting exactly at the head of
`l`, or `none`. -/
def emailMatchLen (l : List Char) : Option Nat :=
  let loc := (l.takeWhile emailLocalChar).length
  if loc = 0 then none
  else
    match l.drop loc with
    | '@' :: rest =>
      match domSplit (rest.takeWhile emailDomainChar) with
      | some n => some (loc + 1 + n)
      | none => none
    | _ => none

/-- Global email substitution: leftmost matches, scanning resumes after
each replacement (`String.prototype.replace` with the `g` flag).  The
`fuel` argument only forces structural termination; any fuel at least
the length of the list gives the same result (`replaceEmailsGo_fuel`). -/
def replaceEmailsGo : Nat → List Char → List Char
  | _, [] => []
  | 0, l => l
  | fuel+1, c :: cs =>
    match emailMatchLen (c :: cs) with
    | some n => emailToken ++ replaceEmailsGo fuel (cs.drop (n - 1))
    | none => c :: replaceEmailsGo fuel cs

/-- The email scanner with exactly enough fuel. -/
def replaceEmailsAux (l : List Char) : List Char :=
  replaceEmailsGo l.length l

/-! ### Phone matcher -/

/-- Match of `\b\d{10}\b` starting exactly at the head of `l`, where
`prevWord` records whether the character before `l` is a word
character (`false` at the start of the string).  Exactly ten digits:
an 11th digit breaks the trailing `\b`, as does a trailing letter or
underscore. -/
def phoneMatchHere (prevWord : Bool) (l : List Char) : Bool :=
  !prevWord && (l.takeWhile Char.isDigit).length == 10 &&
    (match l.drop 10 with
     | [] => true
     | c :: _ => !isWordChar c)

/-- Global phone substitution, threading the word-character status of
the previous character for the `\b` tests.  The `fuel` argument only
forces structural termination; any fuel at least the length of the list
gives the same result (`replacePhonesGo_fuel`). -/
def replacePhonesGo : Bool → Nat → List Char → List Char
  | _, _, [] => []
  | _, 0, l => l
  | p, fuel+1, c :: cs =>
    if phoneMatchHere p (c :: cs) then
      phoneToken ++ replacePhonesGo true fuel (cs.drop 9)
    else
      c :: replacePhonesGo (isWordChar c) fuel cs

/-- The phone scanner with exactly enough fuel. -/
def replacePhonesAux (prevWord : Bool) (l : List Char) : List Char :=
  replacePhonesGo prevWord l.length l

/-- Embeds `text.replace(/[a-zA-Z0-9._%+-]+@[a-zA-Z0-9.-]+\.[a-zA-Z]{2,}/g, '[EMAIL REDACTED]')`. -/
def replaceEmails (s : String) : String :=
  String.mk (replaceEmailsAux s.data)

/-- Embeds `cleaned.replace(/\b\d{10}\b/g, '[PHONE REDACTED]')`. -/
def replacePhones (s : String) : String :=
  String.mk (replacePhonesAux false s.data)

/-- The Redactor `sanitizeInput`: email substitution first, then the
phone substitution on the already-email-redacted text. -/
def sanitizeInput (text : String) : String :=
  let cleaned := replaceEmails text
  replacePhones cleaned

/-! ### ResponseResolver (`getMockResponse`) -/

/-- One language's topic-to-response mapping of the `responses` table. -/
structure ResponseBundle where
  defaultResp : String
  password : String
  privacy : String
deriving DecidableEq

/-- The `en-US` entry of the `responses` table. -/
def enUSBundle : ResponseBundle :=
  ⟨"I can help you with digital safety. Ask me about passwords, phishing, or privacy settings.",
   "To create a strong password, use at least 12 characters, mix uppercase, lowercase, numbers, and symbols. Avoid common words.",
   "Check your privacy settings regularly. Turn off location services for apps that don't need it."⟩

/-- The `hi-IN` entry of the `responses` table. -/
def hiINBundle : ResponseBundle :=
  ⟨"मैं आपकी डिजिटल सुरक्षा में मदद कर सकता हूं। मुझसे पासवर्ड, फ़िशिंग या गोपनीयता सेटिंग्स के बारे में पूछें।",
   "एक मजबूत पासवर्ड बनाने के लिए, कम से कम 12 अक्षर, बड़े और छोटे अक्षर, संख्या और प्रतीकों का उपयोग करें।",
   "अपनी गोपनीयता सेटिंग्स की नियमित जांच करें। उन ऐप्स के लिए स्थान सेवाएं बंद करें जिन्हें इसकी आवश्यकता नहीं है।"⟩

/-- The `mr-IN` entry of the `responses` table. -/
def mrINBundle : ResponseBundle :=
  ⟨"मी तुम्हाला डिजिटल सुरक्षेत मदत करू शकतो. मला पासवर्ड, फिशिंग किंवा गोपनीयता सेटिंग्ज बद्दल विचारा.",
   "मजबूत पासवर्ड तयार करण्यासाठी, किमान 12 अक्षरे, मोठी आणि लहान अक्षरे, क्रमांक आणि चिन्हे वापरा.",
   "आपल्या गोपनीयता सेटिंग्ज नियमित तपासा. ज्या अ‍ॅप्सना गरज नाही त्यांच्यासाठी लोकेशन सेवा बंद करा."⟩

/-- Key lookup `responses[langKey]` on the three-entry object literal. -/
def responsesTable (lang : String) : Option ResponseBundle :=
  if lang = "en-US" then some enUSBundle
  else if lang = "hi-IN" then some hiINBundle
  else if lang = "mr-IN" then some mrINBundle
  else none

/-- Embeds `responses[langKey] || responses['en-US']`. -/
def bundleFor (lang : String) : ResponseBundle :=
  (responsesTable lang).getD enUSBundle

/-- Predicate `b.isPrefixList a` tests that `b` starts with `a`. -/
def isPrefixList : List Char → List Char → Bool
  | [], _ => true
  | _ :: _, [] => false
  | a :: as, b :: bs => a == b && isPrefixList as bs

/-- Embeds `String.prototype.includes` on character lists. -/
def containsSub : List Char → List Char → Bool
  | [], sub => isPrefixList sub []
  | c :: t, sub => isPrefixList sub (c :: t) || containsSub t sub

/-- Embeds `query.toLowerCase()` (character-wise ASCII lowering). -/
def toLowerStr (s : String) : String :=
  String.mk (s.data.map Char.toLower)

/-- Embeds `hay.includes(sub)` on strings. -/
def strIncludes (hay sub : String) : Bool :=
  containsSub hay.data sub.data

/-- The mock ResponseResolver `getMockResponse(query, lang)`;
`toLowerStr query` is the source's `lowerQuery` and `bundleFor lang`
its `langResponses`. -/
def getMockResponse (query lang : String) : String :=
  if strIncludes (toLowerStr query) "password" || strIncludes (toLowerStr query) "पासवर्ड" then
    (bundleFor lang).password
  else if strIncludes (toLowerStr query) "privacy" || strIncludes (toLowerStr query) "गोपनीयता" then
    (bundleFor lang).privacy
  else
    (bundleFor lang).defaultResp

/-! ### The resolver with full JavaScript lookup semantics

`responses` is a plain object literal, so `responses[langKey]` also finds
the members inherited from `Object.prototype`.  For those keys the lookup
is truthy (a function, or for `__proto__` the prototype object), the
`|| responses['en-US']` fallback is skipped, and the subsequent
`.password`/`.privacy`/`.default` reads give `undefined`, which the
function returns.  `getMockResponseJS` embeds that semantics: `some s`
when the program returns the string `s`, `none` when it returns
`undefined`. -/

/-- The member names the `responses` object literal inherits from
`Object.prototype`. -/
def objectProtoKeys : List String :=
  ["constructor", "hasOwnProperty", "isPrototypeOf", "propertyIsEnumerable",
   "toLocaleString", "toString", "valueOf", "__proto__",
   "__defineGetter__", "__defineSetter__", "__lookupGetter__", "__lookupSetter__"]

/-- Result of the JS property read `responses[langKey]`: an own bundle,
a truthy member inherited from `Object.prototype`, or `undefined`. -/
inductive JSLookup where
  | bundle (b : ResponseBundle)
  | inherited (name : String)
  | undef
deriving DecidableEq

/-- Embeds `responses[langKey]` with the prototype chain. -/
def responsesLookupJS (lang : String) : JSLookup :=
  match responsesTable lang with
  | some b => JSLookup.bundle b
  | none =>
    if lang ∈ objectProtoKeys then JSLookup.inherited lang else JSLookup.undef

/-- Embeds `responses[langKey] || responses['en-US']`: only `undefined`
is falsy; inherited members are truthy and block the fallback. -/
def langResponsesJS (lang : String) : JSLookup :=
  match responsesLookupJS lang with
  | JSLookup.undef => responsesLookupJS "en-US"
  | v => v

/-- Property read `v.password`: `undefined` unless `v` is a bundle. -/
def passwordOf : JSLookup → Option String
  | JSLookup.bundle b => some b.password
  | _ => none

/-- Property read `v.privacy`: `undefined` unless `v` is a bundle. -/
def privacyOf : JSLookup → Option String
  | JSLookup.bundle b => some b.privacy
  | _ => none

/-- Property read `v.default`: `undefined` unless `v` is a bundle. -/
def defaultOf : JSLookup → Option String
  | JSLookup.bundle b => some b.defaultResp
  | _ => none

/-- `getMockResponse(query, lang)` under full JS lookup semantics:
`none` models the program returning `undefined`. -/
def getMockResponseJS (query lang : String) : Option String :=
  if strIncludes (toLowerStr query) "password" || strIncludes (toLowerStr query) "पासवर्ड" then
    passwordOf (langResponsesJS lang)
  else if strIncludes (toLowerStr query) "privacy" || strIncludes (toLowerStr query) "गोपनीयता" then
    privacyOf (langResponsesJS lang)
  else
    defaultOf (langResponsesJS lang)

/-! ### Component state machine -/

/-- Embeds `input.trim()`: strip whitespace from both ends. -/
def trimList (l : List Char) : List Char :=
  ((l.dropWhile Char.isWhitespace).reverse.dropWhile Char.isWhitespace).reverse

/-- Embeds `Message.role`. -/
inductive Role where
  | user
  | bot
deriving DecidableEq

/-- The `Message` record of the component. -/
structure Message where
  id : String
  role : Role
  text : String
  lang : Option String
deriving DecidableEq

/-- Component state: the `messages` list, the pending `setTimeout`
callbacks (each closing over the sanitized text and the language code
selected at send time), the selected language and the input field. -/
structure ChatState where
  messages : List Message
  pending : List (String × String)
  selectedLang : String
  input : String
deriving DecidableEq

/-- Initial state: no messages, no pending responses, `LANGUAGES[0]`. -/
def initState : ChatState :=
  ⟨[], [], "en-US", ""⟩

/-- Discrete user/timer actions.  `submit t` is `handleSend` run when
`Date.now()` returns `t`; `fire i t` runs the `i`-th pending timeout
callback when `Date.now()` returns `t`. -/
inductive Event where
  | setInput (s : String)
  | selectLang (code : String)
  | submit (t : Nat)
  | fire (i : Nat) (t : Nat)
  | clear
deriving DecidableEq

/-- One transition of the component. -/
def step (st : ChatState) : Event → ChatState
  | .setInput s => { st with input := s }
  | .selectLang code => { st with selectedLang := code }
  | .clear => { st with messages := [] }
  | .submit t =>
    if (trimList st.input.data).isEmpty then st
    else
      let cleanText := sanitizeInput st.input
      { st with
        messages := st.messages ++ [⟨Nat.repr t, Role.user, cleanText, none⟩],
        pending := st.pending ++ [(cleanText, st.selectedLang)],
        input := "" }
  | .fire i t =>
    match st.pending.get? i with
    | none => st
    | some (clean, lang) =>
      { st with
        messages := st.messages ++
          [⟨Nat.repr (t + 1), Role.bot, getMockResponse clean lang, some lang⟩],
        pending := st.pending.eraseIdx i }

/-- Run a sequence of events from the initial state. -/
def run (evs : List Event) : ChatState :=
  evs.foldl step initState

/-! ### Speech-synthesis boundary

`speak` guards on `'speechSynthesis' in window` and silently does
nothing when the capability is absent; `clearHistory` calls
`window.speechSynthesis.cancel()` with no such guard, so with the
capability absent the member access throws. -/

/-- Speech-related state: the message list plus the at-most-one
utterance in flight. -/
structure SpeechState where
  messages : List Message
  utterance : Option (String × String)
deriving DecidableEq

/-- Embeds `speak(text, lang)`: when synthesis is available, cancel any pending
utterance and start the new one; otherwise do nothing (the whole body is
inside the capability guard). -/
def speakRun (avail : Bool) (st : SpeechState) (text lang : String) :
    Except String SpeechState :=
  if avail then Except.ok { st with utterance := some (text, lang) }
  else Except.ok st

/-- Embeds `clearHistory()`: `setMessages([])`, then the unguarded
`window.speechSynthesis.cancel()`, which throws a `TypeError` when the
capability is absent. -/
def clearHistoryRun (avail : Bool) (st : SpeechState) :
    Except String SpeechState :=
  let st1 : SpeechState := { st with messages := [] }
  if avail then Except.ok { st1 with utterance := none }
  else Except.error "TypeError: window.speechSynthesis is undefined"

/-- Privacy invariant: every stored user message and every pending
response text has passed through the Redactor. -/
def Sanitized (st : ChatState) : Prop :=
  (∀ m ∈ st.messages, m.role = Role.user → ∃ raw, m.text = sanitizeInput raw) ∧
  (∀ p ∈ st.pending, ∃ raw, p.1 = sanitizeInput raw)

/-! ## Basic facts about the scanners -/

theorem replaceEmailsGo_nil (f : Nat) : replaceEmailsGo f [] = [] := by
  cases f <;> rfl

theorem replacePhonesGo_nil (p : Bool) (f : Nat) : replacePhonesGo p f [] = [] := by
  cases f <;> rfl

theorem replaceEmailsGo_fuel (f1 f2 : Nat) (l : List Char)
    (h1 : l.length ≤ f1) (h2 : l.length ≤ f2) :
    replaceEmailsGo f1 l = replaceEmailsGo f2 l := by
  induction f1 generalizing f2 l with
  | zero =>
    cases l with
    | nil => rw [replaceEmailsGo_nil, replaceEmailsGo_nil]
    | cons c cs => simp at h1
  | succ f1 ih =>
    cases l with
    | nil => rw [replaceEmailsGo_nil, replaceEmailsGo_nil]
    | cons c cs =>
      cases f2 with
      | zero => simp at h2
      | succ f2 =>
        simp only [List.length_cons] at h1 h2
        simp only [replaceEmailsGo]
        cases hm : emailMatchLen (c :: cs) with
        | none =>
          show c :: replaceEmailsGo f1 cs = c :: replaceEmailsGo f2 cs
          rw [ih f2 cs (by omega) (by omega)]
        | some n =>
          show emailToken ++ replaceEmailsGo f1 (cs.drop (n-1)) =
            emailToken ++ replaceEmailsGo f2 (cs.drop (n-1))
          rw [ih f2 (cs.drop (n-1))
            (by simp only [List.length_drop]; omega)
            (by simp only [List.length_drop]; omega)]

theorem replacePhonesGo_fuel (f1 f2 : Nat) (l : List Char) (p : Bool)
    (h1 : l.length ≤ f1) (h2 : l.length ≤ f2) :
    replacePhonesGo p f1 l = replacePhonesGo p f2 l := by
  induction f1 generalizing f2 l p with
  | zero =>
    cases l with
    | nil => rw [replacePhonesGo_nil, replacePhonesGo_nil]
    | cons c cs => simp at h1
  | succ f1 ih =>
    cases l with
    | nil => rw [replacePhonesGo_nil, replacePhonesGo_nil]
    | cons c cs =>
      cases f2 with
      | zero => simp at h2
      | succ f2 =>
        simp only [List.length_cons] at h1 h2
        simp only [replacePhonesGo]
        cases phoneMatchHere p (c :: cs) with
        | true =>
          simp only [if_true]
          rw [ih f2 (cs.drop 9) true
            (by simp only [List.length_drop]; omega)
            (by simp only [List.length_drop]; omega)]
        | false =>
          simp only [Bool.false_eq_true, if_false]
          rw [ih f2 cs (isWordChar c) (by omega) (by omega)]

theorem replaceEmailsAux_nil : replaceEmailsAux [] = [] := rfl

/-- One step of the email scanner. -/
theorem replaceEmailsAux_cons (c : Char) (cs : List Char) :
    replaceEmailsAux (c :: cs) =
      match emailMatchLen (c :: cs) with
      | some n => emailToken ++ replaceEmailsAux (cs.drop (n - 1))
      | none => c :: replaceEmailsAux cs := by
  show replaceEmailsGo (cs.length + 1) (c :: cs) = _
  simp only [replaceEmailsGo]
  cases hm : emailMatchLen (c :: cs) with
  | none => rfl
  | some n =>
    show emailToken ++ replaceEmailsGo cs.length (cs.drop (n-1)) = _
    rw [replaceEmailsGo_fuel cs.length (cs.drop (n-1)).length (cs.drop (n-1))
      (by simp only [List.length_drop]; omega) (Nat.le_refl _)]
    rfl

theorem replacePhonesAux_nil (p : Bool) : replacePhonesAux p [] = [] := rfl

/-- One step of the phone scanner. -/
theorem replacePhonesAux_cons (p : Bool) (c : Char) (cs : List Char) :
    replacePhonesAux p (c :: cs) =
      if phoneMatchHere p (c :: cs) then
        phoneToken ++ replacePhonesAux true (cs.drop 9)
      else
        c :: replacePhonesAux (isWordChar c) cs := by
  show replacePhonesGo p (cs.length + 1) (c :: cs) = _
  simp only [replacePhonesGo]
  cases phoneMatchHere p (c :: cs) with
  | true =>
    simp only [if_true]
    rw [replacePhonesGo_fuel cs.length (cs.drop 9).length (cs.drop 9) true
      (by simp only [List.length_drop]; omega) (Nat.le_refl _)]
    rfl
  | false => rfl

/-! ## Substring containment -/

theorem isPrefixList_iff (a b : List Char) :
    isPrefixList a b = true ↔ ∃ t, b = a ++ t := by
  induction a generalizing b with
  | nil => simp [isPrefixList]
  | cons x xs ih =>
    cases b with
    | nil => simp [isPrefixList]
    | cons y ys =>
      simp only [isPrefixList, Bool.and_eq_true, beq_iff_eq, ih, List.cons_append,
        List.cons.injEq]
      constructor
      · rintro ⟨rfl, t, rfl⟩; exact ⟨t, rfl, rfl⟩
      · rintro ⟨t, rfl, rfl⟩; exact ⟨rfl, t, rfl⟩

theorem containsSub_iff (hay sub : List Char) :
    containsSub hay sub = true ↔ ∃ x y, hay = x ++ (sub ++ y) := by
  induction hay with
  | nil =>
    simp only [containsSub, isPrefixList_iff]
    constructor
    · rintro ⟨t, ht⟩; exact ⟨[], t, ht⟩
    · rintro ⟨x, y, hxy⟩
      rcases List.append_eq_nil.1 hxy.symm with ⟨rfl, h2⟩
      exact ⟨y, by simpa using h2.symm⟩
  | cons c t ih =>
    simp only [containsSub, Bool.or_eq_true, isPrefixList_iff, ih]
    constructor
    · rintro (⟨r, hr⟩ | ⟨x, y, hxy⟩)
      · exact ⟨[], r, by simpa using hr⟩
      · exact ⟨c :: x, y, by simp [hxy]⟩
    · rintro ⟨x, y, hxy⟩
      cases x with
      | nil => exact Or.inl ⟨y, by simpa using hxy⟩
      | cons x xs =>
        simp only [List.cons_append, List.cons.injEq] at hxy
        exact Or.inr ⟨xs, y, hxy.2⟩

/-! ## ResponseResolver lemmas -/

theorem getMockResponse_password (q lang : String)
    (h : strIncludes (toLowerStr q) "password" = true ∨
         strIncludes (toLowerStr q) "पासवर्ड" = true) :
    getMockResponse q lang = (bundleFor lang).password := by
  rcases h with h | h <;> simp [getMockResponse, h]

theorem getMockResponse_privacy (q lang : String)
    (h1 : strIncludes (toLowerStr q) "password" = false)
    (h2 : strIncludes (toLowerStr q) "पासवर्ड" = false)
    (h : strIncludes (toLowerStr q) "privacy" = true ∨
         strIncludes (toLowerStr q) "गोपनीयता" = true) :
    getMockResponse q lang = (bundleFor lang).privacy := by
  rcases h with h | h <;> simp [getMockResponse, h1, h2, h]

theorem getMockResponse_default (q lang : String)
    (h1 : strIncludes (toLowerStr q) "password" = false)
    (h2 : strIncludes (toLowerStr q) "पासवर्ड" = false)
    (h3 : strIncludes (toLowerStr q) "privacy" = false)
    (h4 : strIncludes (toLowerStr q) "गोपनीयता" = false) :
    getMockResponse q lang = (bundleFor lang).defaultResp := by
  simp [getMockResponse, h1, h2, h3, h4]

/-! ## Claims about the ResponseResolver -/

/-- Claim C5: for every supported language code, any query containing the
English keyword "password" in any letter casing, or its Devanagari form
"पासवर्ड", resolves to exactly that language's password-advice string,
regardless of any other content of the query (in particular even when the
query also contains a privacy keyword: the password check runs first). -/
theorem password_keyword_overrides (q : String)
    (hq : (∃ a w b, q.data = a ++ w ++ b ∧ w.map Char.toLower = "password".data) ∨
          (∃ a b, q.data = a ++ "पासवर्ड".data ++ b)) :
    getMockResponse q "en-US" = enUSBundle.password ∧
    getMockResponse q "hi-IN" = hiINBundle.password ∧
    getMockResponse q "mr-IN" = mrINBundle.password := by
  have hdev : "पासवर्ड".data.map Char.toLower = "पासवर्ड".data := by decide
  have hinc : strIncludes (toLowerStr q) "password" = true ∨
      strIncludes (toLowerStr q) "पासवर्ड" = true := by
    rcases hq with ⟨a, w, b, hsplit, hw⟩ | ⟨a, b, hsplit⟩
    · left
      show containsSub (q.data.map Char.toLower) "password".data = true
      rw [containsSub_iff]
      exact ⟨a.map Char.toLower, b.map Char.toLower, by
        rw [hsplit]; simp [hw]⟩
    · right
      show containsSub (q.data.map Char.toLower) "पासवर्ड".data = true
      rw [containsSub_iff]
      exact ⟨a.map Char.toLower, b.map Char.toLower, by
        rw [hsplit]; simp [hdev]⟩
  refine ⟨?_, ?_, ?_⟩ <;> rw [getMockResponse_password _ _ hinc] <;> rfl

/-- Witness for C5: a query in mixed casing that also mentions privacy. -/
theorem password_keyword_overrides_witness :
    getMockResponse "Tips on PassWord and privacy" "hi-IN" = hiINBundle.password :=
  (password_keyword_overrides "Tips on PassWord and privacy"
    (Or.inl ⟨"Tips on ".data, "PassWord".data, " and privacy".data, by decide, by decide⟩)).2.1

/-! ### The resolver under full JS lookup semantics -/

/-- Away from the `Object.prototype` member names, the JS lookup selects
exactly the bundle of the three-key model (with its `en-US` fallback). -/
theorem langResponsesJS_eq_bundleFor (lang : String) (h : lang ∉ objectProtoKeys) :
    langResponsesJS lang = JSLookup.bundle (bundleFor lang) := by
  unfold langResponsesJS bundleFor
  cases ht : responsesTable lang with
  | some b =>
    have h1 : responsesLookupJS lang = JSLookup.bundle b := by
      unfold responsesLookupJS
      rw [ht]
    rw [h1]
    rfl
  | none =>
    have h1 : responsesLookupJS lang = JSLookup.undef := by
      unfold responsesLookupJS
      rw [ht, if_neg h]
    rw [h1]
    rfl

/-- Away from the `Object.prototype` member names, the program returns
exactly the three-key model's string. -/
theorem getMockResponseJS_eq (q lang : String) (h : lang ∉ objectProtoKeys) :
    getMockResponseJS q lang = some (getMockResponse q lang) := by
  unfold getMockResponseJS getMockResponse
  rw [langResponsesJS_eq_bundleFor lang h]
  by_cases h1 : (strIncludes (toLowerStr q) "password" ||
      strIncludes (toLowerStr q) "पासवर्ड") = true
  · rw [if_pos h1, if_pos h1]; rfl
  · rw [if_neg h1, if_neg h1]
    by_cases h2 : (strIncludes (toLowerStr q) "privacy" ||
        strIncludes (toLowerStr q) "गोपनीयता") = true
    · rw [if_pos h2, if_pos h2]; rfl
    · rw [if_neg h2, if_neg h2]; rfl

/-- The `en-US` fallback does hold for every unsupported code that is not
an `Object.prototype` member name. -/
theorem getMockResponseJS_nonproto_fallback (q lang : String)
    (hp : lang ∉ objectProtoKeys)
    (h1 : lang ≠ "en-US") (h2 : lang ≠ "hi-IN") (h3 : lang ≠ "mr-IN") :
    getMockResponseJS q lang = getMockResponseJS q "en-US" := by
  rw [getMockResponseJS_eq q lang hp, getMockResponseJS_eq q "en-US" (by decide)]
  have hb : bundleFor lang = bundleFor "en-US" := by
    simp [bundleFor, responsesTable, h1, h2, h3]
  simp only [getMockResponse, hb]

/-- Claim C6 (code bug): for the unsupported language code "toString" — a
member name the `responses` object literal inherits from
`Object.prototype` — the lookup is truthy, the `|| responses['en-US']`
fallback is skipped, and the resolver returns `undefined` instead of the
`en-US` result; so an unrecognized code does not always behave like
`en-US` (the fallback does hold away from the inherited member names,
`getMockResponseJS_nonproto_fallback`). -/
theorem proto_key_skips_enUS_fallback :
    getMockResponseJS "hello" "toString" = none ∧
    getMockResponseJS "hello" "en-US" = some enUSBundle.defaultResp ∧
    getMockResponseJS "hello" "toString" ≠ getMockResponseJS "hello" "en-US" :=
  ⟨rfl, rfl, by decide⟩

/-- Claim C7 (code bug): the resolver is not total on the program — for the
language code "valueOf" (an `Object.prototype` member name) every path
returns `undefined`: a keyword-free query does not produce the selected
bundle's default, and even a password query returns `undefined`, while the
same keyword-free query under `en-US` produces the default string. -/
theorem resolver_undefined_on_proto_keys :
    getMockResponseJS "what is phishing" "valueOf" = none ∧
    getMockResponseJS "password help" "valueOf" = none ∧
    getMockResponseJS "what is phishing" "en-US" = some enUSBundle.defaultResp :=
  ⟨rfl, rfl, rfl⟩

/-- Counterexample for C10: at the language code "toString" a query that is
exactly the Devanagari password keyword makes the program return
`undefined`, not the selected bundle's password-advice string — keyword
matching does not produce the password response for *every* language
code. -/
theorem devanagari_keyword_proto_key_counterexample :
    getMockResponseJS "पासवर्ड" "toString" = none ∧
    getMockResponseJS "पासवर्ड" "en-US" = some enUSBundle.password :=
  ⟨rfl, rfl⟩

/-- Claim C10 (amended): for every language code that is not an
`Object.prototype` member name, keyword matching is independent of the
selected bundle — the fixed pair (password, पासवर्ड) triggers the selected
bundle's password response and (privacy, गोपनीयता) its privacy response —
and an `en-US` query containing only the Devanagari keyword returns the
English password-advice string. -/
theorem keywords_independent_outside_proto_keys :
    (∀ lang q : String, lang ∉ objectProtoKeys →
        (strIncludes (toLowerStr q) "password" = true ∨
         strIncludes (toLowerStr q) "पासवर्ड" = true) →
        getMockResponseJS q lang = some (bundleFor lang).password) ∧
    (∀ lang q : String, lang ∉ objectProtoKeys →
        strIncludes (toLowerStr q) "password" = false →
        strIncludes (toLowerStr q) "पासवर्ड" = false →
        (strIncludes (toLowerStr q) "privacy" = true ∨
         strIncludes (toLowerStr q) "गोपनीयता" = true) →
        getMockResponseJS q lang = some (bundleFor lang).privacy) ∧
    getMockResponseJS "पासवर्ड" "en-US" = some enUSBundle.password := by
  refine ⟨?_, ?_, by decide⟩
  · intro lang q hp h
    rw [getMockResponseJS_eq q lang hp, getMockResponse_password q lang h]
  · intro lang q hp h1 h2 h
    rw [getMockResponseJS_eq q lang hp, getMockResponse_privacy q lang h1 h2 h]

/-- Witness for C10 (amended): the Devanagari keyword under an unsupported
non-prototype code resolves to the `en-US` bundle's password entry. -/
theorem keywords_independent_outside_proto_keys_witness :
    getMockResponseJS "पासवर्ड kya hai" "fr-FR" = some (bundleFor "fr-FR").password :=
  keywords_independent_outside_proto_keys.1 "fr-FR" "पासवर्ड kya hai"
    (by decide) (Or.inr (by decide))

/-! ## Claims about the Redactor order and scenarios -/

/-- Claim C2: the Redactor runs the email substitution first and the phone
substitution second, on the already-email-redacted text; consequently an
email whose local part is ten digits is redacted as EMAIL only (no PHONE
token appears), and the scenario input produces exactly the expected
output. -/
theorem email_substitution_runs_first :
    (∀ s : String, sanitizeInput s = replacePhones (replaceEmails s)) ∧
    sanitizeInput "1234567890@x.com" = "[EMAIL REDACTED]" ∧
    sanitizeInput "my email is a@b.com call 9876543210" =
      "my email is [EMAIL REDACTED] call [PHONE REDACTED]" :=
  ⟨fun _ => rfl, by decide, by decide⟩

/-! ## Claims about the component state -/

theorem step_preserves_sanitized (st : ChatState) (e : Event) (h : Sanitized st) :
    Sanitized (step st e) := by
  obtain ⟨hm, hp⟩ := h
  cases e with
  | setInput s => exact ⟨hm, hp⟩
  | selectLang c => exact ⟨hm, hp⟩
  | clear => exact ⟨by simp [step], hp⟩
  | submit t =>
    simp only [step]
    split
    · exact ⟨hm, hp⟩
    · constructor
      · intro m hmem hrole
        rcases List.mem_append.1 hmem with h1 | h1
        · exact hm m h1 hrole
        · simp only [List.mem_singleton] at h1
          subst h1
          exact ⟨st.input, rfl⟩
      · intro p hpmem
        rcases List.mem_append.1 hpmem with h1 | h1
        · exact hp p h1
        · simp only [List.mem_singleton] at h1
          subst h1
          exact ⟨st.input, rfl⟩
  | fire i t =>
    simp only [step]
    cases hg : st.pending.get? i with
    | none => exact ⟨hm, hp⟩
    | some pr =>
      obtain ⟨clean, lang⟩ := pr
      constructor
      · intro m hmem hrole
        rcases List.mem_append.1 hmem with h1 | h1
        · exact hm m h1 hrole
        · simp only [List.mem_singleton] at h1
          subst h1
          simp at hrole
      · intro p hpmem
        exact hp p (st.pending.eraseIdx_subset i hpmem)

theorem foldl_preserves_sanitized (evs : List Event) (st : ChatState) (h : Sanitized st) :
    Sanitized (evs.foldl step st) := by
  induction evs generalizing st with
  | nil => exact h
  | cons e evs ih => exact ih _ (step_preserves_sanitized st e h)

/-- Claim C1: in every reachable state every user message's text (and every
pending response text) is the Redactor's output on some raw input, and an
accepted submit stores exactly `sanitizeInput` of the raw input as the new
user message. -/
theorem user_text_always_redacted :
    (∀ evs : List Event, Sanitized (run evs)) ∧
    (∀ st : ChatState, ∀ t : Nat, (trimList st.input.data).isEmpty = false →
      (step st (Event.submit t)).messages =
        st.messages ++ [⟨Nat.repr t, Role.user, sanitizeInput st.input, none⟩]) := by
  constructor
  · intro evs
    refine foldl_preserves_sanitized evs initState ⟨?_, ?_⟩ <;> simp [initState, Sanitized]
  · intro st t h
    simp [step, h]

/-- Witness for C1: concrete run and concrete accepted submit. -/
theorem user_text_always_redacted_witness :
    (∃ raw, "me [EMAIL REDACTED]" = sanitizeInput raw) ∧
    (step ⟨[], [], "en-US", "hi there"⟩ (Event.submit 7)).messages =
      [] ++ [⟨Nat.repr 7, Role.user, sanitizeInput "hi there", none⟩] := by
  constructor
  · exact (user_text_always_redacted.1 [Event.setInput "me a@b.com", Event.submit 7]).1
      ⟨"7", Role.user, "me [EMAIL REDACTED]", none⟩ (by decide) rfl
  · exact user_text_always_redacted.2 ⟨[], [], "en-US", "hi there"⟩ 7 (by decide)

/-- Claim C9 (code bug): ids are `Date.now().toString()`, so two submit
actions in the same millisecond store two user messages with the same id
"5" — the stored ids are not pairwise distinct. -/
theorem duplicate_ids_same_millisecond :
    ((run [Event.setInput "hello", Event.submit 5,
           Event.setInput "world", Event.submit 5]).messages.map Message.id) = ["5", "5"] ∧
    ¬ ((run [Event.setInput "hello", Event.submit 5,
             Event.setInput "world", Event.submit 5]).messages.map Message.id).Nodup :=
  ⟨by decide, by decide⟩

/-- Claim C8 (code bug): `clearHistory` empties the message list and cancels
the in-flight utterance when synthesis is available, but its cancel call is
unguarded: with the capability absent it raises instead of being a no-op,
while `speak` (which is guarded) is a silent no-op. -/
theorem clearHistory_unguarded_cancel_raises :
    clearHistoryRun false ⟨[⟨"5", Role.user, "hi", none⟩], some ("x", "en-US")⟩ =
      Except.error "TypeError: window.speechSynthesis is undefined" ∧
    clearHistoryRun true ⟨[⟨"5", Role.user, "hi", none⟩], some ("x", "en-US")⟩ =
      Except.ok ⟨[], none⟩ ∧
    speakRun false ⟨[⟨"5", Role.user, "hi", none⟩], none⟩ "text" "en-US" =
      Except.ok ⟨[⟨"5", Role.user, "hi", none⟩], none⟩ :=
  ⟨rfl, rfl, rfl⟩

/-! ## Phone-scanner characterization -/

theorem isWordChar_of_isDigit (c : Char) (h : c.isDigit = true) : isWordChar c = true := by
  simp [isWordChar, h]

theorem isDigit_false_of_isWordChar_false (c : Char) (h : isWordChar c = false) :
    c.isDigit = false := by
  cases hd : c.isDigit
  · rfl
  · rw [isWordChar_of_isDigit c hd] at h; exact h

theorem phoneMatchHere_prevTrue (l : List Char) : phoneMatchHere true l = false := by
  simp [phoneMatchHere]

theorem phoneMatchHere_nondigit (p : Bool) (c : Char) (l : List Char)
    (h : c.isDigit = false) : phoneMatchHere p (c :: l) = false := by
  simp [phoneMatchHere, List.takeWhile_cons, h]

theorem takeWhile_all_append (pch : Char → Bool) (ds rest : List Char)
    (hds : ∀ c ∈ ds, pch c = true)
    (hrest : rest = [] ∨ ∃ r rs, rest = r :: rs ∧ pch r = false) :
    (ds ++ rest).takeWhile pch = ds := by
  induction ds with
  | nil =>
    rcases hrest with rfl | ⟨r, rs, rfl, hr⟩
    · rfl
    · simp [List.takeWhile_cons, hr]
  | cons d ds ih =>
    have hd : pch d = true := hds d (List.mem_cons_self d ds)
    rw [List.cons_append, List.takeWhile_cons_of_pos hd,
      ih (fun c hc => hds c (List.mem_cons_of_mem d hc))]

/-- A run of digits at which the scanner does not fire is copied verbatim;
scanning continues after it with a word-character on the left. -/
theorem replacePhones_skip_run (ds rest : List Char)
    (hrest : rest = [] ∨ ∃ r rs, rest = r :: rs ∧ r.isDigit = false) :
    ∀ p : Bool, ds ≠ [] → (∀ c ∈ ds, c.isDigit = true) →
      phoneMatchHere p (ds ++ rest) = false →
      replacePhonesAux p (ds ++ rest) = ds ++ replacePhonesAux true rest := by
  induction ds with
  | nil => intro p hne _ _; exact absurd rfl hne
  | cons d ds ih =>
    intro p _ hds hnm
    have hd : d.isDigit = true := hds d (List.mem_cons_self d ds)
    rw [List.cons_append, replacePhonesAux_cons]
    rw [List.cons_append] at hnm
    simp only [hnm, Bool.false_eq_true, if_false]
    rw [isWordChar_of_isDigit d hd]
    cases ds with
    | nil => simp
    | cons e ds2 =>
      rw [ih true (by simp) (fun c hc => hds c (List.mem_cons_of_mem d hc))
        (phoneMatchHere_prevTrue _)]
      rfl

/-- A word-bounded run of exactly ten digits fires the scanner. -/
theorem replacePhones_match_run (ds rest : List Char)
    (hds : ∀ c ∈ ds, c.isDigit = true) (hlen : ds.length = 10)
    (hrest : rest = [] ∨ ∃ r rs, rest = r :: rs ∧ isWordChar r = false) :
    replacePhonesAux false (ds ++ rest) = phoneToken ++ replacePhonesAux true rest := by
  have hrest' : rest = [] ∨ ∃ r rs, rest = r :: rs ∧ r.isDigit = false := by
    rcases hrest with rfl | ⟨r, rs, rfl, hr⟩
    · exact Or.inl rfl
    · exact Or.inr ⟨r, rs, rfl, isDigit_false_of_isWordChar_false r hr⟩
  have htw : (ds ++ rest).takeWhile Char.isDigit = ds :=
    takeWhile_all_append _ ds rest hds hrest'
  have hmatch : phoneMatchHere false (ds ++ rest) = true := by
    unfold phoneMatchHere
    rw [htw, hlen, List.drop_left' hlen]
    rcases hrest with rfl | ⟨r, rs, rfl, hr⟩
    · simp
    · simp [hr]
  obtain ⟨d, ds9, rfl⟩ : ∃ d ds9, ds = d :: ds9 := by
    cases ds with
    | nil => simp at hlen
    | cons d t => exact ⟨d, t, rfl⟩
  have h9 : ds9.length = 9 := by simpa using hlen
  rw [List.cons_append, replacePhonesAux_cons]
  rw [List.cons_append] at hmatch
  simp only [hmatch, if_true]
  rw [List.drop_left' h9]

/-- Claim C3: in the phone substitution, a word-bounded run of exactly ten
consecutive digits is replaced by the token `[PHONE REDACTED]` (first
conjunct); a word-bounded run of nine or eleven digits is copied verbatim
(second conjunct); a digit run preceded by a word character is copied
verbatim (third conjunct); and a left-bounded ten-digit run followed by a
letter or underscore — the other way a ten-digit run can be embedded in a
longer alphanumeric token — is copied verbatim because the trailing word
boundary fails (fourth conjunct).  In each case scanning continues on the
rest. -/
theorem phone_rule_ten_digit_runs :
    (∀ ds rest : List Char, (∀ c ∈ ds, c.isDigit = true) → ds.length = 10 →
      (rest = [] ∨ ∃ r rs, rest = r :: rs ∧ isWordChar r = false) →
      replacePhonesAux false (ds ++ rest) = phoneToken ++ replacePhonesAux true rest) ∧
    (∀ ds rest : List Char, (∀ c ∈ ds, c.isDigit = true) →
      (ds.length = 9 ∨ ds.length = 11) →
      (rest = [] ∨ ∃ r rs, rest = r :: rs ∧ r.isDigit = false) →
      replacePhonesAux false (ds ++ rest) = ds ++ replacePhonesAux true rest) ∧
    (∀ ds rest : List Char, ds ≠ [] → (∀ c ∈ ds, c.isDigit = true) →
      (rest = [] ∨ ∃ r rs, rest = r :: rs ∧ r.isDigit = false) →
      replacePhonesAux true (ds ++ rest) = ds ++ replacePhonesAux true rest) ∧
    (∀ (ds : List Char) (r : Char) (rs : List Char),
      (∀ c ∈ ds, c.isDigit = true) → ds.length = 10 →
      r.isDigit = false → isWordChar r = true →
      replacePhonesAux false (ds ++ r :: rs) = ds ++ replacePhonesAux true (r :: rs)) := by
  refine ⟨replacePhones_match_run, ?_, ?_, ?_⟩
  · intro ds rest hds hlen hrest
    have hne : ds ≠ [] := by
      intro h; rw [h] at hlen; simp at hlen
    refine replacePhones_skip_run ds rest hrest false hne hds ?_
    unfold phoneMatchHere
    rw [takeWhile_all_append _ ds rest hds hrest]
    rcases hlen with h | h <;> simp [h]
  · intro ds rest hne hds hrest
    exact replacePhones_skip_run ds rest hrest true hne hds (phoneMatchHere_prevTrue _)
  · intro ds r rs hds hlen hrd hrw
    have hne : ds ≠ [] := by
      intro h; rw [h] at hlen; simp at hlen
    refine replacePhones_skip_run ds (r :: rs) (Or.inr ⟨r, rs, rfl, hrd⟩) false hne hds ?_
    unfold phoneMatchHere
    rw [takeWhile_all_append Char.isDigit ds (r :: rs) hds (Or.inr ⟨r, rs, rfl, hrd⟩),
      List.drop_left' hlen]
    simp [hrw]

/-- Witness for C3 at concrete digit runs, including a ten-digit run
followed by the letter x. -/
theorem phone_rule_ten_digit_runs_witness :
    replacePhonesAux false ("9876543210".data ++ []) =
      phoneToken ++ replacePhonesAux true [] ∧
    replacePhonesAux false ("987654321".data ++ []) =
      "987654321".data ++ replacePhonesAux true [] ∧
    replacePhonesAux true ("9876543210".data ++ []) =
      "9876543210".data ++ replacePhonesAux true [] ∧
    replacePhonesAux false ("1234567890".data ++ 'x' :: []) =
      "1234567890".data ++ replacePhonesAux true ('x' :: []) :=
  ⟨phone_rule_ten_digit_runs.1 "9876543210".data [] (by decide) (by decide) (Or.inl rfl),
   phone_rule_ten_digit_runs.2.1 "987654321".data [] (by decide) (Or.inl (by decide)) (Or.inl rfl),
   phone_rule_ten_digit_runs.2.2.1 "9876543210".data [] (by decide) (by decide) (Or.inl rfl),
   phone_rule_ten_digit_runs.2.2.2 "1234567890".data 'x' [] (by decide) (by decide)
     (by decide) (by decide)⟩

/-! ## Idempotence of the phone scanner -/

/-- The scanner copies a digit-free segment verbatim. -/
theorem replacePhones_scan_nodigit (a : List Char)
    (ha : ∀ c ∈ a, c.isDigit = false) :
    ∀ (p : Bool) (b : List Char),
      replacePhonesAux p (a ++ b) = a ++ replacePhonesAux (prevAfter p a) b := by
  induction a with
  | nil => intro p b; rfl
  | cons c t ih =>
    intro p b
    have hc : c.isDigit = false := ha c (List.mem_cons_self c t)
    rw [List.cons_append, replacePhonesAux_cons, phoneMatchHere_nondigit p c (t ++ b) hc]
    simp only [Bool.false_eq_true, if_false]
    rw [ih (fun x hx => ha x (List.mem_cons_of_mem c hx)) (isWordChar c) b]
    rfl

theorem phoneMatchHere_true_elim (q : Bool) (l : List Char)
    (h : phoneMatchHere q l = true) :
    q = false ∧ (l.takeWhile Char.isDigit).length = 10 ∧
      (l.drop 10 = [] ∨ ∃ r rs, l.drop 10 = r :: rs ∧ isWordChar r = false) := by
  unfold phoneMatchHere at h
  simp only [Bool.and_eq_true, Bool.not_eq_true', beq_iff_eq] at h
  obtain ⟨⟨hq, hlen⟩, hb⟩ := h
  refine ⟨hq, hlen, ?_⟩
  cases hd : l.drop 10 with
  | nil => exact Or.inl rfl
  | cons r rs =>
    rw [hd] at hb
    exact Or.inr ⟨r, rs, rfl, by simpa using hb⟩

theorem dropWhile_head_not (pch : Char → Bool) (l : List Char) :
    l.dropWhile pch = [] ∨ ∃ r rs, l.dropWhile pch = r :: rs ∧ pch r = false := by
  induction l with
  | nil => exact Or.inl rfl
  | cons c t ih =>
    cases hc : pch c
    · exact Or.inr ⟨c, t, by simp [List.dropWhile_cons, hc], hc⟩
    · simpa [List.dropWhile_cons, hc] using ih

/-- The `\b\d{10}\b` test only sees the run and the head of what follows. -/
theorem phoneMatchHere_ds_tail (ds rest X : List Char)
    (hds : ∀ c ∈ ds, c.isDigit = true)
    (hrest : rest = [] ∨ ∃ r rs, rest = r :: rs ∧ r.isDigit = false)
    (hX : X = [] ∨ ∃ r rs, X = r :: rs ∧ r.isDigit = false)
    (hhead : rest.head? = X.head?) (q : Bool) :
    phoneMatchHere q (ds ++ rest) = phoneMatchHere q (ds ++ X) := by
  unfold phoneMatchHere
  rw [takeWhile_all_append _ ds rest hds hrest, takeWhile_all_append _ ds X hds hX]
  by_cases h10 : ds.length = 10
  · rw [List.drop_left' h10, List.drop_left' h10]
    cases rest with
    | nil =>
      cases X with
      | nil => rfl
      | cons x xs => simp at hhead
    | cons r rs =>
      cases X with
      | nil => simp at hhead
      | cons x xs =>
        simp only [List.head?_cons, Option.some.injEq] at hhead
        rw [hhead]
  · have hne : (ds.length == 10) = false := by simpa using h10
    rw [hne]
    simp

/-- Double-scan lemma for the phone pass: rescanning an output is the
identity, provided the left context matches or the head is not a digit. -/
theorem replacePhones_twice_aux (n : Nat) :
    ∀ (l : List Char) (p q : Bool), l.length ≤ n →
      (p = q ∨ l = [] ∨ ∃ c cs, l = c :: cs ∧ c.isDigit = false) →
      replacePhonesAux p (replacePhonesAux q l) = replacePhonesAux q l := by
  induction n with
  | zero =>
    intro l p q hlen _
    have hnil : l = [] := by
      cases l with
      | nil => rfl
      | cons c cs => simp at hlen
    subst hnil
    rfl
  | succ n ih =>
    intro l p q hlen hpq
    cases l with
    | nil => rfl
    | cons c cs =>
      simp only [List.length_cons] at hlen
      cases hm : phoneMatchHere q (c :: cs) with
      | true =>
        obtain ⟨hq, hlen10, hbound⟩ := phoneMatchHere_true_elim q _ hm
        subst hq
        rw [replacePhonesAux_cons]
        simp only [hm, if_true]
        have hrest : cs.drop 9 = [] ∨ ∃ r rs, cs.drop 9 = r :: rs ∧ r.isDigit = false := by
          rcases hbound with h | ⟨r, rs, hr, hw⟩
          · exact Or.inl h
          · exact Or.inr ⟨r, rs, hr, isDigit_false_of_isWordChar_false r hw⟩
        rw [replacePhones_scan_nodigit phoneToken (by decide) p _]
        have hPA : prevAfter p phoneToken = false := rfl
        rw [hPA]
        congr 1
        refine ih (cs.drop 9) false true ?_ ?_
        · simp only [List.length_drop]; omega
        · rcases hrest with h | ⟨r, rs, hr, hd⟩
          · exact Or.inr (Or.inl h)
          · exact Or.inr (Or.inr ⟨r, rs, hr, hd⟩)
      | false =>
        cases hc : c.isDigit with
        | false =>
          rw [replacePhonesAux_cons]
          simp only [hm, Bool.false_eq_true, if_false]
          rw [replacePhonesAux_cons, phoneMatchHere_nondigit p c _ hc]
          simp only [Bool.false_eq_true, if_false]
          congr 1
          exact ih cs (isWordChar c) (isWordChar c) (by omega) (Or.inl rfl)
        | true =>
          have hq : p = q := by
            rcases hpq with h | h | ⟨c', cs', heq, hd⟩
            · exact h
            · simp at h
            · injection heq with h1 h2
              subst h1
              rw [hc] at hd
              simp at hd
          subst hq
          have hdsAll : ∀ x ∈ (c :: cs).takeWhile Char.isDigit, x.isDigit = true :=
            fun x hx => List.mem_takeWhile_imp hx
          have hdsne : (c :: cs).takeWhile Char.isDigit ≠ [] := by
            rw [List.takeWhile_cons_of_pos hc]; simp
          have hrest0 := dropWhile_head_not Char.isDigit (c :: cs)
          have hinner : replacePhonesAux p (c :: cs) =
              (c :: cs).takeWhile Char.isDigit ++
                replacePhonesAux true ((c :: cs).dropWhile Char.isDigit) := by
            conv_lhs => rw [← List.takeWhile_append_dropWhile Char.isDigit (c :: cs)]
            exact replacePhones_skip_run _ _ hrest0 p hdsne hdsAll
              (by rw [List.takeWhile_append_dropWhile]; exact hm)
          rw [hinner]
          have hXhead : replacePhonesAux true ((c :: cs).dropWhile Char.isDigit) = [] ∨
              ∃ r rs', replacePhonesAux true ((c :: cs).dropWhile Char.isDigit) = r :: rs' ∧
                r.isDigit = false := by
            rcases hrest0 with h | ⟨r, rs, hr, hd⟩
            · left; rw [h]; rfl
            · right
              refine ⟨r, replacePhonesAux (isWordChar r) rs, ?_, hd⟩
              rw [hr, replacePhonesAux_cons]
              simp only [phoneMatchHere_prevTrue, Bool.false_eq_true, if_false]
          have hheads : ((c :: cs).dropWhile Char.isDigit).head? =
              (replacePhonesAux true ((c :: cs).dropWhile Char.isDigit)).head? := by
            rcases hrest0 with h | ⟨r, rs, hr, hd⟩
            · rw [h]; rfl
            · rw [hr, replacePhonesAux_cons]
              simp only [phoneMatchHere_prevTrue, Bool.false_eq_true, if_false]
              rfl
          have houter : phoneMatchHere p ((c :: cs).takeWhile Char.isDigit ++
              replacePhonesAux true ((c :: cs).dropWhile Char.isDigit)) = false := by
            rw [← phoneMatchHere_ds_tail _ _ _ hdsAll hrest0 hXhead hheads p,
              List.takeWhile_append_dropWhile]
            exact hm
          rw [replacePhones_skip_run _ _ hXhead p hdsne hdsAll houter]
          congr 1
          have hlenrest : ((c :: cs).dropWhile Char.isDigit).length ≤ n := by
            have hl := congrArg List.length (List.takeWhile_append_dropWhile Char.isDigit (c :: cs))
            simp only [List.length_append, List.length_cons] at hl
            have hpos : 0 < ((c :: cs).takeWhile Char.isDigit).length :=
              List.length_pos.2 hdsne
            omega
          exact ih _ true true hlenrest (Or.inl rfl)

/-- The phone pass is idempotent. -/
theorem replacePhones_idem (l : List Char) (p : Bool) :
    replacePhonesAux p (replacePhonesAux p l) = replacePhonesAux p l :=
  replacePhones_twice_aux l.length l p p (Nat.le_refl _) (Or.inl rfl)

/-! ## Idempotence of the email scanner -/

theorem emailMatchLen_nonlocal (c : Char) (l : List Char)
    (h : emailLocalChar c = false) : emailMatchLen (c :: l) = none := by
  unfold emailMatchLen
  rw [List.takeWhile_cons_of_neg (by simp [h])]
  simp

theorem emailMatchLen_stop (run : List Char) (d : Char) (tail : List Char)
    (hrun : ∀ c ∈ run, emailLocalChar c = true)
    (hd : emailLocalChar d = false) (hne : d ≠ '@') :
    emailMatchLen (run ++ d :: tail) = none := by
  have htw : (run ++ d :: tail).takeWhile emailLocalChar = run :=
    takeWhile_all_append _ run (d :: tail) hrun (Or.inr ⟨d, tail, rfl, hd⟩)
  unfold emailMatchLen
  rw [htw]
  by_cases h0 : run.length = 0
  · rw [if_pos h0]
  · rw [if_neg h0, List.drop_left]
    split
    · next heq =>
      injection heq with h1 _
      exact absurd h1 hne
    · rfl

theorem emailMatchLen_all_local (a : List Char)
    (h : ∀ c ∈ a, emailLocalChar c = true) : emailMatchLen a = none := by
  have htw : a.takeWhile emailLocalChar = a := by
    have := takeWhile_all_append emailLocalChar a [] h (Or.inl rfl)
    simpa using this
  unfold emailMatchLen
  rw [htw]
  by_cases h0 : a.length = 0
  · rw [if_pos h0]
  · rw [if_neg h0, List.drop_length]

theorem replaceEmails_all_local (a : List Char)
    (h : ∀ c ∈ a, emailLocalChar c = true) : replaceEmailsAux a = a := by
  induction a with
  | nil => rfl
  | cons c t ih =>
    rw [replaceEmailsAux_cons, emailMatchLen_all_local (c :: t) h]
    show c :: replaceEmailsAux t = c :: t
    rw [ih (fun x hx => h x (List.mem_cons_of_mem c hx))]

theorem emailMatchLen_atrun (run M : List Char)
    (hrun : ∀ c ∈ run, emailLocalChar c = true) (hne : run ≠ []) :
    emailMatchLen (run ++ '@' :: M) =
      match domSplit (M.takeWhile emailDomainChar) with
      | some n => some (run.length + 1 + n)
      | none => none := by
  have htw : (run ++ '@' :: M).takeWhile emailLocalChar = run :=
    takeWhile_all_append _ run ('@' :: M) hrun (Or.inr ⟨'@', M, rfl, by decide⟩)
  have h0 : ¬(run.length = 0) := by simpa [List.length_eq_zero] using hne
  unfold emailMatchLen
  rw [htw, if_neg h0, List.drop_left]
  rfl

theorem emailMatchLen_domFail (run M : List Char)
    (hrun : ∀ c ∈ run, emailLocalChar c = true) (hne : run ≠ [])
    (hdom : domSplit (M.takeWhile emailDomainChar) = none) :
    emailMatchLen (run ++ '@' :: M) = none := by
  have h := emailMatchLen_atrun run M hrun hne
  rw [hdom] at h
  exact h

theorem domFail_of_emailMatchLen_none (run M : List Char)
    (hrun : ∀ c ∈ run, emailLocalChar c = true) (hne : run ≠ [])
    (h : emailMatchLen (run ++ '@' :: M) = none) :
    domSplit (M.takeWhile emailDomainChar) = none := by
  have ha := emailMatchLen_atrun run M hrun hne
  cases hd : domSplit (M.takeWhile emailDomainChar) with
  | none => rfl
  | some n =>
    rw [ha, hd] at h
    simp at h

theorem replaceEmails_skip_localrun (run : List Char) (d : Char) (tail : List Char)
    (hrun : ∀ c ∈ run, emailLocalChar c = true)
    (hd : emailLocalChar d = false) (hne : d ≠ '@') :
    replaceEmailsAux (run ++ d :: tail) = run ++ d :: replaceEmailsAux tail := by
  induction run with
  | nil =>
    simp only [List.nil_append]
    rw [replaceEmailsAux_cons, emailMatchLen_nonlocal d tail hd]
  | cons c rs ih =>
    have hnone := emailMatchLen_stop (c :: rs) d tail hrun hd hne
    rw [List.cons_append] at hnone
    rw [List.cons_append, replaceEmailsAux_cons, hnone]
    show c :: replaceEmailsAux (rs ++ d :: tail) = _
    rw [ih (fun x hx => hrun x (List.mem_cons_of_mem c hx))]
    rfl

theorem replaceEmails_skip_atrun (run M : List Char)
    (hrun : ∀ c ∈ run, emailLocalChar c = true)
    (hdom : domSplit (M.takeWhile emailDomainChar) = none) :
    replaceEmailsAux (run ++ '@' :: M) = run ++ '@' :: replaceEmailsAux M := by
  induction run with
  | nil =>
    simp only [List.nil_append]
    rw [replaceEmailsAux_cons, emailMatchLen_nonlocal '@' M (by decide)]
  | cons c rs ih =>
    have hnone := emailMatchLen_domFail (c :: rs) M hrun (by simp) hdom
    rw [List.cons_append] at hnone
    rw [List.cons_append, replaceEmailsAux_cons, hnone]
    show c :: replaceEmailsAux (rs ++ '@' :: M) = _
    rw [ih (fun x hx => hrun x (List.mem_cons_of_mem c hx))]
    rfl

/-- The email scanner copies a segment verbatim when the segment contains
no `@` and ends in a non-local character (so no match can start inside it
or straddle its right edge). -/
theorem replaceEmails_scan_through (a : List Char)
    (hat : '@' ∉ a)
    (hlast : a = [] ∨ ∃ a' d, a = a' ++ [d] ∧ emailLocalChar d = false) :
    ∀ b : List Char, replaceEmailsAux (a ++ b) = a ++ replaceEmailsAux b := by
  induction a with
  | nil => intro b; rfl
  | cons c t ih =>
    intro b
    have hlast' : t = [] ∨ ∃ t' d, t = t' ++ [d] ∧ emailLocalChar d = false := by
      rcases hlast with h | ⟨a', d, heq, hd⟩
      · simp at h
      · cases a' with
        | nil =>
          simp only [List.nil_append, List.cons.injEq] at heq
          exact Or.inl heq.2
        | cons x xs =>
          simp only [List.cons_append, List.cons.injEq] at heq
          exact Or.inr ⟨xs, d, heq.2, hd⟩
    have hat' : '@' ∉ t := fun hm => hat (List.mem_cons_of_mem c hm)
    have hnone : emailMatchLen (c :: (t ++ b)) = none := by
      by_cases hc : emailLocalChar c = true
      · have hdne : (c :: t).dropWhile emailLocalChar ≠ [] := by
          intro hnil
          have hall : ∀ x ∈ c :: t, emailLocalChar x = true :=
            List.dropWhile_eq_nil_iff.1 hnil
          rcases hlast with h | ⟨a', d, heq, hd⟩
          · simp at h
          · have hdl : emailLocalChar d = true := hall d (by rw [heq]; simp)
            rw [hd] at hdl; simp at hdl
        obtain ⟨e, τ, he, hloce⟩ :
            ∃ e τ, (c :: t).dropWhile emailLocalChar = e :: τ ∧ emailLocalChar e = false := by
          rcases dropWhile_head_not emailLocalChar (c :: t) with h | h
          · exact absurd h hdne
          · exact h
        have hsplit := List.takeWhile_append_dropWhile emailLocalChar (c :: t)
        rw [he] at hsplit
        have heA : e ∈ c :: t := by
          rw [← hsplit]; simp
        have hene : e ≠ '@' := by
          intro hE; rw [hE] at heA; exact hat heA
        have hrunAll : ∀ x ∈ (c :: t).takeWhile emailLocalChar, emailLocalChar x = true :=
          fun x hx => List.mem_takeWhile_imp hx
        have hform : c :: (t ++ b) =
            (c :: t).takeWhile emailLocalChar ++ e :: (τ ++ b) := by
          have h2 : (c :: t) ++ b = ((c :: t).takeWhile emailLocalChar ++ e :: τ) ++ b := by
            rw [hsplit]
          simpa [List.append_assoc] using h2
        rw [hform]
        exact emailMatchLen_stop _ e (τ ++ b) hrunAll hloce hene
      · refine emailMatchLen_nonlocal c (t ++ b) ?_
        cases hcc : emailLocalChar c
        · rfl
        · exact absurd hcc hc
    rw [List.cons_append, replaceEmailsAux_cons, hnone]
    show c :: replaceEmailsAux (t ++ b) = _
    rw [ih hat' hlast' b]
    rfl

theorem replaceEmails_emailToken_through (b : List Char) :
    replaceEmailsAux (emailToken ++ b) = emailToken ++ replaceEmailsAux b :=
  replaceEmails_scan_through emailToken (by decide)
    (Or.inr ⟨"[EMAIL REDACTED".data, ']', by decide, by decide⟩) b

theorem replaceEmails_phoneToken_through (b : List Char) :
    replaceEmailsAux (phoneToken ++ b) = phoneToken ++ replaceEmailsAux b :=
  replaceEmails_scan_through phoneToken (by decide)
    (Or.inr ⟨"[PHONE REDACTED".data, ']', by decide, by decide⟩) b

/-- The email scan output agrees with the input up to the first replacement,
which starts with `[`. -/
theorem replaceEmails_prefix_structure (M : List Char) :
    replaceEmailsAux M = M ∨
      ∃ pre suf, (∃ t, M = pre ++ t) ∧ replaceEmailsAux M = pre ++ '[' :: suf := by
  induction M with
  | nil => exact Or.inl rfl
  | cons c cs ih =>
    cases hm : emailMatchLen (c :: cs) with
    | some k =>
      right
      refine ⟨[], "EMAIL REDACTED]".data ++ replaceEmailsAux (cs.drop (k - 1)),
        ⟨c :: cs, rfl⟩, ?_⟩
      rw [replaceEmailsAux_cons, hm]
      rfl
    | none =>
      have hstep : replaceEmailsAux (c :: cs) = c :: replaceEmailsAux cs := by
        rw [replaceEmailsAux_cons, hm]
      rcases ih with h | ⟨pre, suf, ⟨t, ht⟩, hE⟩
      · left
        rw [hstep, h]
      · right
        refine ⟨c :: pre, suf, ⟨t, by rw [ht]; rfl⟩, ?_⟩
        rw [hstep, hE]
        rfl

theorem takeWhile_stop_mid (pch : Char → Bool) (d : Char) (hd : pch d = false) :
    ∀ (pre suf : List Char), (pre ++ d :: suf).takeWhile pch = pre.takeWhile pch := by
  intro pre
  induction pre with
  | nil => intro suf; simp [List.takeWhile_cons, hd]
  | cons c t ih =>
    intro suf
    cases hc : pch c
    · simp [List.takeWhile_cons, hc]
    · simp only [List.cons_append, List.takeWhile_cons_of_pos hc]
      rw [ih suf]

theorem takeWhile_prefix_ext (pch : Char → Bool) :
    ∀ (pre t : List Char), ∃ r, (pre ++ t).takeWhile pch = pre.takeWhile pch ++ r := by
  intro pre
  induction pre with
  | nil => intro t; exact ⟨t.takeWhile pch, by simp⟩
  | cons c cs ih =>
    intro t
    cases hc : pch c
    · exact ⟨[], by simp [List.takeWhile_cons, hc]⟩
    · obtain ⟨r, hr⟩ := ih t
      exact ⟨r, by simp only [List.cons_append, List.takeWhile_cons_of_pos hc, hr]⟩

theorem domSplitFrom_none_iff (dom : List Char) (k : Nat) :
    domSplitFrom dom k = none ↔
      ∀ j, 1 ≤ j → j ≤ k → ¬(dom.get? j = some '.' ∧ 2 ≤ letterRunAfter dom j) := by
  induction k with
  | zero =>
    constructor
    · intro _ j h1 h2; omega
    · intro _; rfl
  | succ k ih =>
    unfold domSplitFrom
    by_cases hc : dom.get? (k + 1) = some '.' ∧ 2 ≤ letterRunAfter dom (k + 1)
    · rw [if_pos hc]
      constructor
      · intro h; simp at h
      · intro h; exact absurd hc (h (k + 1) (by omega) (by omega))
    · rw [if_neg hc, ih]
      constructor
      · intro h j h1 h2
        rcases Nat.lt_or_ge j (k + 1) with hlt | hge
        · exact h j h1 (by omega)
        · have hj : j = k + 1 := by omega
          subst hj; exact hc
      · intro h j h1 h2
        exact h j h1 (by omega)

theorem domSplit_none_iff (dom : List Char) :
    domSplit dom = none ↔
      ∀ j, 1 ≤ j → ¬(dom.get? j = some '.' ∧ 2 ≤ letterRunAfter dom j) := by
  unfold domSplit
  rw [domSplitFrom_none_iff]
  constructor
  · intro h j h1 hc
    have hj : j < dom.length := by
      by_cases hj : j < dom.length
      · exact hj
      · rw [List.get?_eq_none.2 (by omega)] at hc
        simp at hc
    exact h j h1 (by omega) hc
  · intro h j h1 _
    exact h j h1

theorem letterRunAfter_prefix_le (D ext : List Char) (j : Nat) (hj : j + 1 ≤ D.length) :
    letterRunAfter D j ≤ letterRunAfter (D ++ ext) j := by
  unfold letterRunAfter
  rw [List.drop_append_of_le_length hj]
  obtain ⟨r, hr⟩ := takeWhile_prefix_ext Char.isAlpha (D.drop (j + 1)) ext
  rw [hr, List.length_append]
  omega

theorem domSplit_none_of_append (D ext : List Char)
    (h : domSplit (D ++ ext) = none) : domSplit D = none := by
  rw [domSplit_none_iff] at h ⊢
  intro j h1 hc
  obtain ⟨hget, hlet⟩ := hc
  have hj : j < D.length := by
    by_cases hj : j < D.length
    · exact hj
    · rw [List.get?_eq_none.2 (by omega)] at hget
      simp at hget
  refine h j h1 ⟨?_, ?_⟩
  · rw [List.get?_append hj]; exact hget
  · exact le_trans hlet (letterRunAfter_prefix_le D ext j (by omega))

/-- A failing domain split keeps failing after the tail has been rescanned:
the rescan output agrees with the input on a prefix and then starts a
replacement token with `[`, which is not a domain character. -/
theorem domFail_persists (M X : List Char)
    (hX : X = M ∨ ∃ pre suf, (∃ t, M = pre ++ t) ∧ X = pre ++ '[' :: suf)
    (h : domSplit (M.takeWhile emailDomainChar) = none) :
    domSplit (X.takeWhile emailDomainChar) = none := by
  rcases hX with rfl | ⟨pre, suf, ⟨t, rfl⟩, rfl⟩
  · exact h
  · rw [takeWhile_stop_mid emailDomainChar '[' (by decide) pre suf]
    obtain ⟨r, hr⟩ := takeWhile_prefix_ext emailDomainChar pre t
    rw [hr] at h
    exact domSplit_none_of_append _ _ h

/-- The email pass is idempotent (strong-induction core). -/
theorem replaceEmails_twice_aux (n : Nat) :
    ∀ l : List Char, l.length ≤ n →
      replaceEmailsAux (replaceEmailsAux l) = replaceEmailsAux l := by
  induction n with
  | zero =>
    intro l hlen
    have hnil : l = [] := by
      cases l with
      | nil => rfl
      | cons c cs => simp at hlen
    subst hnil; rfl
  | succ n ih =>
    intro l hlen
    cases l with
    | nil => rfl
    | cons c cs =>
      simp only [List.length_cons] at hlen
      cases hm : emailMatchLen (c :: cs) with
      | some k =>
        have hstep : replaceEmailsAux (c :: cs) =
            emailToken ++ replaceEmailsAux (cs.drop (k - 1)) := by
          rw [replaceEmailsAux_cons, hm]
        rw [hstep, replaceEmails_emailToken_through]
        congr 1
        exact ih (cs.drop (k - 1)) (by simp only [List.length_drop]; omega)
      | none =>
        by_cases hc : emailLocalChar c = true
        · rcases dropWhile_head_not emailLocalChar (c :: cs) with hre | ⟨e, τ, hre, hloce⟩
          · have hall : ∀ x ∈ c :: cs, emailLocalChar x = true :=
              List.dropWhile_eq_nil_iff.1 hre
            rw [replaceEmails_all_local (c :: cs) hall]
            exact replaceEmails_all_local (c :: cs) hall
          · have hsplit := List.takeWhile_append_dropWhile emailLocalChar (c :: cs)
            rw [hre] at hsplit
            have hrunAll : ∀ x ∈ (c :: cs).takeWhile emailLocalChar,
                emailLocalChar x = true :=
              fun x hx => List.mem_takeWhile_imp hx
            have hrunne : (c :: cs).takeWhile emailLocalChar ≠ [] := by
              rw [List.takeWhile_cons_of_pos hc]; simp
            have hlenτ : τ.length ≤ n := by
              have hl := congrArg List.length hsplit
              simp only [List.length_append, List.length_cons] at hl
              have hpos : 0 < ((c :: cs).takeWhile emailLocalChar).length :=
                List.length_pos.2 hrunne
              omega
            by_cases he : e = '@'
            · subst he
              have hdom : domSplit (τ.takeWhile emailDomainChar) = none := by
                apply domFail_of_emailMatchLen_none _ _ hrunAll hrunne
                rw [hsplit]; exact hm
              rw [← hsplit]
              rw [replaceEmails_skip_atrun _ _ hrunAll hdom]
              rw [replaceEmails_skip_atrun _ _ hrunAll
                (domFail_persists τ (replaceEmailsAux τ)
                  (replaceEmails_prefix_structure τ) hdom)]
              rw [ih τ hlenτ]
            · rw [← hsplit]
              rw [replaceEmails_skip_localrun _ e τ hrunAll hloce he]
              rw [replaceEmails_skip_localrun _ e (replaceEmailsAux τ) hrunAll hloce he]
              rw [ih τ hlenτ]
        · have hc' : emailLocalChar c = false := by
            cases hcc : emailLocalChar c
            · rfl
            · exact absurd hcc hc
          have hstep : replaceEmailsAux (c :: cs) = c :: replaceEmailsAux cs := by
            rw [replaceEmailsAux_cons, hm]
          rw [hstep]
          have hstep2 : replaceEmailsAux (c :: replaceEmailsAux cs) =
              c :: replaceEmailsAux (replaceEmailsAux cs) := by
            rw [replaceEmailsAux_cons,
              emailMatchLen_nonlocal c (replaceEmailsAux cs) hc']
          rw [hstep2, ih cs (by omega)]

/-- The email pass is idempotent. -/
theorem replaceEmails_idem (l : List Char) :
    replaceEmailsAux (replaceEmailsAux l) = replaceEmailsAux l :=
  replaceEmails_twice_aux l.length l (Nat.le_refl _)

/-! ## The email pass is the identity on the phone pass's output -/

/-- The phone scan output agrees with the input up to the first
replacement, which starts with `[`. -/
theorem replacePhones_prefix_structure (p : Bool) (M : List Char) :
    replacePhonesAux p M = M ∨
      ∃ pre suf, (∃ t, M = pre ++ t) ∧ replacePhonesAux p M = pre ++ '[' :: suf := by
  induction M generalizing p with
  | nil => exact Or.inl rfl
  | cons c cs ih =>
    cases hm : phoneMatchHere p (c :: cs) with
    | true =>
      right
      refine ⟨[], "PHONE REDACTED]".data ++ replacePhonesAux true (cs.drop 9),
        ⟨c :: cs, rfl⟩, ?_⟩
      rw [replacePhonesAux_cons]
      simp only [hm, if_true]
      rfl
    | false =>
      have hstep : replacePhonesAux p (c :: cs) =
          c :: replacePhonesAux (isWordChar c) cs := by
        rw [replacePhonesAux_cons]
        simp only [hm, Bool.false_eq_true, if_false]
      rcases ih (isWordChar c) with h | ⟨pre, suf, ⟨t, ht⟩, hE⟩
      · left; rw [hstep, h]
      · right
        exact ⟨c :: pre, suf, ⟨t, by rw [ht]; rfl⟩, by rw [hstep, hE]; rfl⟩

/-- A fixed point of the email scanner has no match at its head, and its
tail is again a fixed point. -/
theorem replaceEmails_fixpoint_cons (c : Char) (cs : List Char)
    (h : replaceEmailsAux (c :: cs) = c :: cs) :
    emailMatchLen (c :: cs) = none ∧ replaceEmailsAux cs = cs := by
  cases hm : emailMatchLen (c :: cs) with
  | some k =>
    exfalso
    have hloc : emailLocalChar c = true := by
      by_contra hcl
      have hc' : emailLocalChar c = false := by
        cases hcc : emailLocalChar c
        · rfl
        · exact absurd hcc hcl
      have hnone := emailMatchLen_nonlocal c cs hc'
      rw [hnone] at hm
      simp at hm
    have hstep : replaceEmailsAux (c :: cs) =
        '[' :: ("EMAIL REDACTED]".data ++ replaceEmailsAux (cs.drop (k - 1))) := by
      rw [replaceEmailsAux_cons, hm]
      rfl
    rw [hstep] at h
    have hc0 : '[' = c := (List.cons.inj h).1
    rw [← hc0] at hloc
    exact absurd hloc (by decide)
  | none =>
    refine ⟨rfl, ?_⟩
    have hstep : replaceEmailsAux (c :: cs) = c :: replaceEmailsAux cs := by
      rw [replaceEmailsAux_cons, hm]
    rw [hstep] at h
    exact (List.cons.inj h).2

theorem replaceEmails_fixpoint_tail (l : List Char)
    (h : replaceEmailsAux l = l) : replaceEmailsAux l.tail = l.tail := by
  cases l with
  | nil => rfl
  | cons c cs => exact (replaceEmails_fixpoint_cons c cs h).2

theorem replaceEmails_fixpoint_drop (l : List Char)
    (h : replaceEmailsAux l = l) :
    ∀ k : Nat, replaceEmailsAux (l.drop k) = l.drop k := by
  intro k
  induction k with
  | zero => exact h
  | succ k ih =>
    rw [← List.tail_drop]
    exact replaceEmails_fixpoint_tail _ ih

/-- If the email pass leaves `l` unchanged, it also leaves the phone
pass's output on `l` unchanged: phone tokens contain no `@`, end in a
non-local `]`, and begin with `[`, so they can neither form an email
match themselves nor complete one with their surroundings. -/
theorem replaceEmails_phone_output (n : Nat) :
    ∀ (l : List Char) (p : Bool), l.length ≤ n → replaceEmailsAux l = l →
      replaceEmailsAux (replacePhonesAux p l) = replacePhonesAux p l := by
  induction n with
  | zero =>
    intro l p hlen _
    have hnil : l = [] := by
      cases l with
      | nil => rfl
      | cons c cs => simp at hlen
    subst hnil
    rfl
  | succ n ih =>
    intro l p hlen hfix
    cases l with
    | nil => rfl
    | cons c cs =>
      simp only [List.length_cons] at hlen
      obtain ⟨hm_email, hfix_cs⟩ := replaceEmails_fixpoint_cons c cs hfix
      cases hm : phoneMatchHere p (c :: cs) with
      | true =>
        have hstep : replacePhonesAux p (c :: cs) =
            phoneToken ++ replacePhonesAux true (cs.drop 9) := by
          rw [replacePhonesAux_cons]
          simp only [hm, if_true]
        rw [hstep, replaceEmails_phoneToken_through]
        congr 1
        refine ih (cs.drop 9) true (by simp only [List.length_drop]; omega) ?_
        exact replaceEmails_fixpoint_drop (c :: cs) hfix 10
      | false =>
        have hstep : replacePhonesAux p (c :: cs) =
            c :: replacePhonesAux (isWordChar c) cs := by
          rw [replacePhonesAux_cons]
          simp only [hm, Bool.false_eq_true, if_false]
        rw [hstep]
        have hnone : emailMatchLen (c :: replacePhonesAux (isWordChar c) cs) = none := by
          rcases replacePhones_prefix_structure (isWordChar c) cs
            with hP | ⟨pre, suf, ⟨t, ht⟩, hP⟩
          · rw [hP]; exact hm_email
          · rw [hP]
            by_cases hc : emailLocalChar c = true
            · rcases dropWhile_head_not emailLocalChar pre with hre | ⟨e, π, hre, hloce⟩
              · have hpre : ∀ x ∈ pre, emailLocalChar x = true :=
                  List.dropWhile_eq_nil_iff.1 hre
                have hrun : ∀ x ∈ c :: pre, emailLocalChar x = true := by
                  intro x hx
                  rcases List.mem_cons.1 hx with rfl | hx
                  · exact hc
                  · exact hpre x hx
                exact emailMatchLen_stop (c :: pre) '[' suf hrun (by decide) (by decide)
              · obtain ⟨ρ, hρdef⟩ : ∃ ρ, ρ = pre.takeWhile emailLocalChar := ⟨_, rfl⟩
                have hsplitp := List.takeWhile_append_dropWhile emailLocalChar pre
                rw [hre, ← hρdef] at hsplitp
                have hrun : ∀ x ∈ c :: ρ, emailLocalChar x = true := by
                  intro x hx
                  rcases List.mem_cons.1 hx with rfl | hx
                  · exact hc
                  · exact List.mem_takeWhile_imp (hρdef ▸ hx)
                by_cases he : e = '@'
                · subst he
                  have hcs : c :: cs = (c :: ρ) ++ '@' :: (π ++ t) := by
                    rw [ht, ← hsplitp]
                    simp [List.append_assoc]
                  have hdom0 : domSplit ((π ++ t).takeWhile emailDomainChar) = none := by
                    apply domFail_of_emailMatchLen_none _ _ hrun (by simp)
                    rw [← hcs]
                    exact hm_email
                  have hdom : domSplit ((π ++ '[' :: suf).takeWhile emailDomainChar)
                      = none := by
                    rw [takeWhile_stop_mid emailDomainChar '[' (by decide) π suf]
                    obtain ⟨r, hr⟩ := takeWhile_prefix_ext emailDomainChar π t
                    rw [hr] at hdom0
                    exact domSplit_none_of_append _ _ hdom0
                  have hform : c :: (pre ++ '[' :: suf) =
                      (c :: ρ) ++ '@' :: (π ++ '[' :: suf) := by
                    conv_lhs => rw [← hsplitp]
                    simp [List.append_assoc]
                  rw [hform]
                  exact emailMatchLen_domFail _ _ hrun (by simp) hdom
                · have hform : c :: (pre ++ '[' :: suf) =
                      (c :: ρ) ++ e :: (π ++ '[' :: suf) := by
                    conv_lhs => rw [← hsplitp]
                    simp [List.append_assoc]
                  rw [hform]
                  exact emailMatchLen_stop _ e _ hrun hloce he
            · refine emailMatchLen_nonlocal _ _ ?_
              cases hcc : emailLocalChar c
              · rfl
              · exact absurd hcc hc
        have hstep2 : replaceEmailsAux (c :: replacePhonesAux (isWordChar c) cs) =
            c :: replaceEmailsAux (replacePhonesAux (isWordChar c) cs) := by
          rw [replaceEmailsAux_cons, hnone]
        rw [hstep2, ih cs (isWordChar c) (by omega) hfix_cs]

/-- Claim C4: the Redactor is idempotent — running `sanitizeInput` on its
own output changes nothing, for every input string. -/
theorem sanitizeInput_idempotent (x : String) :
    sanitizeInput (sanitizeInput x) = sanitizeInput x := by
  have hE := replaceEmails_idem x.data
  have hEP := replaceEmails_phone_output (replaceEmailsAux x.data).length
    (replaceEmailsAux x.data) false (Nat.le_refl _) hE
  have hPP := replacePhones_idem (replaceEmailsAux x.data) false
  show String.mk (replacePhonesAux false (replaceEmailsAux
      (replacePhonesAux false (replaceEmailsAux x.data)))) =
    String.mk (replacePhonesAux false (replaceEmailsAux x.data))
  rw [hEP, hPP]

end Citadel
